import Mathlib

/-!
Verification of the multi_cmd optimizer core (cmd_utils.py, potentials.py).

Two layers of embedding are used, matching the two kinds of data the source
manipulates:

* tensors as they appear in `flatten_filter_none`, `exp_map` and the
  write-back loop of `CMD.step` are modelled as pairs of a shape
  (`List ℕ`, row-major) and the flat row-major data (`List ℚ`);
* the per-player flattened vectors flowing through `avp`, `atvp` and
  `metamatrix_conjugate_gradient` are modelled as `Fin`-indexed rational
  vectors, one per player, so that the linear algebra (vector-Jacobian
  products, dot products) is explicit.

The automatic-differentiation engine is an external collaborator of the
source (spec section 6); it is modelled by the data it hands back to the
optimizer: the flattened first-order gradient of each player's gradient
objective, and, for every Hessian objective l and players j, i, the
Jacobian block d(grad_{x_j} f_l)/d(x_i) at the current parameters, so that
`autograd.grad(g, x_i, grad_outputs=v)` is the vector-Jacobian product
`Matrix.vecMul v` of that block.  `allow_unused=True` gradients that come
back as None and are zero-filled by `flatten_filter_none` are subsumed by
zero blocks.
-/

namespace MultiCMD

/-! ### Tensor layer: flatten_filter_none, exp_map, CMD.step write-back -/

/-- A torch tensor: row-major shape and flat row-major data. -/
abbrev TensorQ : Type := List ℕ × List ℚ

/-- `t.numel()`: product of the shape dimensions. -/
def numel (t : TensorQ) : ℕ := t.1.prod

/-- The per-parameter pieces built by the loop of `flatten_filter_none`:
a None gradient becomes `torch.zeros(param.numel())`, a present gradient
contributes its flat data (`grad.contiguous().view(-1)`). -/
def ffn_parts (grad_list : List (Option TensorQ)) (param_list : List TensorQ) :
    List (List ℚ) :=
  (grad_list.zip param_list).map fun gp =>
    match gp.1 with
    | none => List.replicate (numel gp.2) 0
    | some g => g.2

/-- `flatten_filter_none(grad_list, param_list, detach, neg)`: concatenate the
pieces; negate the concatenation when `neg` is set.  `detach` only strips the
result from the differentiable graph, which has no value-level content here;
the argument is kept for signature fidelity. -/
def flatten_filter_none (grad_list : List (Option TensorQ))
    (param_list : List TensorQ) (detach neg : Bool) : List ℚ :=
  if neg then ((ffn_parts grad_list param_list).flatten).map (fun x => -x)
  else (ffn_parts grad_list param_list).flatten

/-- The parameter write-back loop of `CMD.step`: for each tensor `p` of a
player, take the next `p.numel()` entries of the flattened mapped vector and
reshape them to `p.shape`.  `reshape` succeeds exactly when the slice has
`p.numel()` elements (python slicing clamps, so a short tail yields a short
slice and the reshape raises); a raised size-mismatch error is `none`. -/
def cmd_write_back : List TensorQ → List ℚ → Option (List TensorQ)
  | [], _ => some []
  | p :: rest, flat =>
    if (flat.take (numel p)).length = numel p then
      (cmd_write_back rest (flat.drop (numel p))).map
        (fun tl => (p.1, flat.take (numel p)) :: tl)
    else
      none

/-- Elementwise sum of two equally sized flat tensors (torch `+`). -/
def addVec (a b : List ℚ) : List ℚ := List.zipWith (· + ·) a b

/-- A Bregman potential as the dictionary of potentials.py: the three maps
on flat tensors. -/
structure BregmanPotential : Type where
  Dx : List ℚ → List ℚ
  Dx_inv : List ℚ → List ℚ
  Dxx_vp : List ℚ → List ℚ → List ℚ

/-- `squared_distance(alpha)` from potentials.py. -/
def squared_distance (alpha : ℚ) : BregmanPotential where
  Dx := fun x => x.map (fun v => v / alpha)
  Dx_inv := fun x => x.map (fun v => v * alpha)
  Dxx_vp := fun _ v => v.map (fun w => w * alpha)

/-- The spec's contract for a Bregman potential (section 3): the three maps
act elementwise, in particular they preserve vector length. -/
structure ElementwiseBregman (breg : BregmanPotential) : Prop where
  dx_len : ∀ x, (breg.Dx x).length = x.length
  dx_inv_len : ∀ x, (breg.Dx_inv x).length = x.length
  dxx_len : ∀ p v, p.length = v.length → (breg.Dxx_vp p v).length = v.length

/-- `exp_map(player_list_flattened, nash_list_flattened, bregman)`:
`mapped = [Dx(Dx_inv(param) + Dxx_vp(param, nash)) for param, nash in zip(...)]`,
computed under `torch.no_grad()` (value-level no-op). -/
def exp_map (breg : BregmanPotential)
    (player_list_flattened nash_list_flattened : List (List ℚ)) :
    List (List ℚ) :=
  List.zipWith
    (fun param nash => breg.Dx (addVec (breg.Dx_inv param) (breg.Dxx_vp param nash)))
    player_list_flattened nash_list_flattened

/-! ### Vector layer: the meta-matrix operator and the CG solver -/

/-- A flattened per-player vector of known length. -/
abbrev Vec (m : ℕ) : Type := Fin m → ℚ

/-- One flattened vector per player (player i has `d i` parameters). -/
abbrev Vecs {n : ℕ} (d : Fin n → ℕ) : Type := ∀ i, Vec (d i)

/-- The external autograd engine, by the data it supplies to the optimizer:

* `gradLoss i`: `autograd.grad(grad_loss_list[i], player_list[i])`, flattened
  with `None` entries zero-filled (used to build `b`);
* `hess l j i`: the Jacobian of the flattened first-order gradient
  `autograd.grad(hessian_loss_list[l], player_list[j])` with respect to
  player i's parameters, so that the second `autograd.grad` call with
  `grad_outputs = v` returns `Matrix.vecMul v (hess l j i)`. -/
structure DiffEngine (n : ℕ) (d : Fin n → ℕ) : Type where
  gradLoss : ∀ i, Vec (d i)
  hess : ∀ _l _j _i : Fin n, Matrix (Fin (d _j)) (Fin (d _i)) ℚ

/-- A Bregman `Dxx_vp` at the vector layer, one map per player (the source
evaluates `bregman['Dxx_vp'](player_list_flattened[i], v)` blockwise). -/
abbrev DxxFam {n : ℕ} (d : Fin n → ℕ) : Type :=
  ∀ i, Vec (d i) → Vec (d i) → Vec (d i)

/-- `squared_distance(alpha)['Dxx_vp']` at the vector layer: `vec * alpha`. -/
def squared_distance_Dxx_vp {n : ℕ} {d : Fin n → ℕ} (alpha : ℚ) : DxxFam d :=
  fun _ _ v k => v k * alpha

/-- The `Dxx_vp` family is linear in the vector argument, as it is for the
elementwise second-derivative operator the spec requires (section 3). -/
def DxxLinear {n : ℕ} {d : Fin n → ℕ} (Dxx : DxxFam d) : Prop :=
  (∀ i p v w, Dxx i p (v + w) = Dxx i p v + Dxx i p w) ∧
  (∀ i p (a : ℚ) v, Dxx i p (a • v) = a • Dxx i p v)

/-- The (i, j) term of the `avp` double loop.  On the diagonal the Bregman
term is added (there `vector_elem = v i`).  Off the diagonal the loss is
`hessian_loss_list[i]` when `transpose` is unset and `hessian_loss_list[j]`
when it is set, the first gradient is taken with respect to `col_params`
(player j), and the vector-Jacobian product against `row_params` (player i)
is seeded by `vector_elem = v j`. -/
def avpEntry {n : ℕ} {d : Fin n → ℕ} (E : DiffEngine n d) (Dxx : DxxFam d)
    (pf v : Vecs d) (transpose : Bool) (i j : Fin n) : Vec (d i) :=
  if _h : i = j then Dxx i (pf i) (v i)
  else Matrix.vecMul (v j) (E.hess (if transpose then j else i) j i)

/-- `avp(hessian_loss_list, player_list, player_list_flattened,
vector_list_flattened, bregman, transpose)`: the meta-matrix product,
accumulated per output block. -/
def avp {n : ℕ} {d : Fin n → ℕ} (E : DiffEngine n d) (Dxx : DxxFam d)
    (pf v : Vecs d) (transpose : Bool) : Vecs d :=
  fun i => ∑ j, avpEntry E Dxx pf v transpose i j

/-- The (i, j) term of `atvp`: the reused precomputed gradient of
`hessian_loss_list[j]` with respect to player j, vector-Jacobian multiplied
against player i's parameters with seed `v j`; Bregman term on the
diagonal. -/
def atvpEntry {n : ℕ} {d : Fin n → ℕ} (E : DiffEngine n d) (Dxx : DxxFam d)
    (pf v : Vecs d) (i j : Fin n) : Vec (d i) :=
  if _h : i = j then Dxx i (pf i) (v i)
  else Matrix.vecMul (v j) (E.hess j j i)

/-- `atvp(hessian_loss_list, player_list, player_list_flattened,
vector_list_flattened, bregman)`: transposed meta-matrix product with the
first-order gradients precomputed once per player. -/
def atvp {n : ℕ} {d : Fin n → ℕ} (E : DiffEngine n d) (Dxx : DxxFam d)
    (pf v : Vecs d) : Vecs d :=
  fun i => ∑ j, atvpEntry E Dxx pf v i j

/-- Modelled from the spec: the per-pair computation that section 4.2's
contract (and claim C1) describes — the first gradient is of player j's own
Hessian objective, and the vector-Jacobian product is seeded by `v j` when
`transpose` is unset but by `v i` when it is set.  Stated for games in which
all players share one parameter count, since the described seed `v i` must
match the size of player j's gradient to be well-typed at all. -/
def avp_as_claimed {n m : ℕ} (E : DiffEngine n (fun _ => m))
    (Dxx : DxxFam (fun _ : Fin n => m)) (pf v : Vecs (fun _ : Fin n => m))
    (transpose : Bool) : Vecs (fun _ : Fin n => m) :=
  fun i => Dxx i (pf i) (v i) +
    ∑ j ∈ Finset.univ.erase i,
      Matrix.vecMul (if transpose then v i else v j) (E.hess j j i)

/-- Joint scalar `sum(torch.dot(e, e) ...)` across players. -/
def dotSum {n : ℕ} {d : Fin n → ℕ} (x y : Vecs d) : ℚ :=
  ∑ i, Matrix.dotProduct (x i) (y i)

/-- The normal-equations operator used by the solver:
`avp(..., avp(..., v, transpose=False), transpose=True)`. -/
def AtA_vp {n : ℕ} {d : Fin n → ℕ} (E : DiffEngine n d) (Dxx : DxxFam d)
    (pf : Vecs d) (v : Vecs d) : Vecs d :=
  avp E Dxx pf (avp E Dxx pf v false) true

/-- Result of the CG loop: final candidate, number of executed loop bodies,
and the values `new_rdotr` measured at the end of each executed body. -/
structure CGLoopOut {n : ℕ} (d : Fin n → ℕ) : Type where
  x : Vecs d
  iters : ℕ
  trace : List ℚ

/-- The `for i in range(n_steps)` loop of `metamatrix_conjugate_gradient`:
`alpha = rdotr / (p . A'p)`; `x += alpha p`; `r -= alpha A'p`; break when the
new squared residual is below `atol` or `residual_tol`; otherwise
`p = r + (new_rdotr / rdotr) p` and continue. -/
def cgLoop {n : ℕ} {d : Fin n → ℕ} (E : DiffEngine n d) (Dxx : DxxFam d)
    (pf : Vecs d) (atol rtol : ℚ) :
    ℕ → Vecs d → Vecs d → Vecs d → ℚ → CGLoopOut d
  | 0, x, _r, _p, _rdotr => ⟨x, 0, []⟩
  | fuel + 1, x, r, p, rdotr =>
    let At_A_p := AtA_vp E Dxx pf p
    let alpha := rdotr / dotSum p At_A_p
    let x' := x + alpha • p
    let r' := r - alpha • At_A_p
    let new_rdotr := dotSum r' r'
    if new_rdotr < atol ∨ new_rdotr < rtol then ⟨x', 1, [new_rdotr]⟩
    else
      let rest := cgLoop E Dxx pf atol rtol fuel x' r'
        (r' + (new_rdotr / rdotr) • p) new_rdotr
      ⟨rest.x, rest.iters + 1, new_rdotr :: rest.trace⟩

/-- `b`: the per-player flattened negated gradients of `grad_loss_list`
(`neg=True, detach=True`). -/
def cg_b {n : ℕ} {d : Fin n → ℕ} (E : DiffEngine n d) : Vecs d :=
  fun i k => -(E.gradLoss i k)

/-- `r` before any subtraction: the transposed product `A^t b`. -/
def cg_r0 {n : ℕ} {d : Fin n → ℕ} (E : DiffEngine n d) (Dxx : DxxFam d)
    (pf : Vecs d) : Vecs d :=
  avp E Dxx pf (cg_b E) true

/-- `residual_tol = tol * norm_At_b`, measured before the warm-start
subtraction. -/
def cg_residual_tol {n : ℕ} {d : Fin n → ℕ} (E : DiffEngine n d)
    (Dxx : DxxFam d) (pf : Vecs d) (tol : ℚ) : ℚ :=
  tol * dotSum (cg_r0 E Dxx pf) (cg_r0 E Dxx pf)

/-- The starting candidate: the supplied guess, or the zero vectors when
`vector_list_flattened` is None. -/
def cg_x0 {n : ℕ} {d : Fin n → ℕ} (guess : Option (Vecs d)) : Vecs d :=
  guess.getD 0

/-- The initial residual: `A^t b`, minus `A^t A x0` when a guess was given. -/
def cg_init_r {n : ℕ} {d : Fin n → ℕ} (E : DiffEngine n d) (Dxx : DxxFam d)
    (pf : Vecs d) (guess : Option (Vecs d)) : Vecs d :=
  match guess with
  | none => cg_r0 E Dxx pf
  | some x => cg_r0 E Dxx pf - AtA_vp E Dxx pf x

/-- The early-exit test `rdotr < residual_tol or rdotr < atol`, on the
initial residual. -/
abbrev cg_early_exit {n : ℕ} {d : Fin n → ℕ} (E : DiffEngine n d)
    (Dxx : DxxFam d) (pf : Vecs d) (guess : Option (Vecs d))
    (tol atol : ℚ) : Prop :=
  dotSum (cg_init_r E Dxx pf guess) (cg_init_r E Dxx pf guess) <
      cg_residual_tol E Dxx pf tol ∨
    dotSum (cg_init_r E Dxx pf guess) (cg_init_r E Dxx pf guess) < atol

/-- The CG loop of the solver as run on the solver's initial state. -/
def cg_loop_out {n : ℕ} {d : Fin n → ℕ} (E : DiffEngine n d) (Dxx : DxxFam d)
    (pf : Vecs d) (guess : Option (Vecs d)) (nsteps : ℕ) (tol atol : ℚ) :
    CGLoopOut d :=
  cgLoop E Dxx pf atol (cg_residual_tol E Dxx pf tol) nsteps (cg_x0 guess)
    (cg_init_r E Dxx pf guess) (cg_init_r E Dxx pf guess)
    (dotSum (cg_init_r E Dxx pf guess) (cg_init_r E Dxx pf guess))

/-- `metamatrix_conjugate_gradient(grad_loss_list, hessian_loss_list,
player_list, player_list_flattened, vector_list_flattened, bregman, n_steps,
tol, atol)`.  The final `return vector_list_flattened, i+1` reads the loop
variable `i`; when the loop body never executed (`n_steps = 0` without an
early exit) python raises an unbound-variable error, modelled as `none`. -/
def metamatrix_conjugate_gradient {n : ℕ} {d : Fin n → ℕ} (E : DiffEngine n d)
    (Dxx : DxxFam d) (pf : Vecs d) (guess : Option (Vecs d)) (nsteps : ℕ)
    (tol atol : ℚ) : Option (Vecs d × ℕ) :=
  let r := cg_init_r E Dxx pf guess
  let rdotr := dotSum r r
  if rdotr < cg_residual_tol E Dxx pf tol ∨ rdotr < atol then
    some (cg_x0 guess, 0)
  else if (cg_loop_out E Dxx pf guess nsteps tol atol).iters = 0 then none
  else some ((cg_loop_out E Dxx pf guess nsteps tol atol).x,
    (cg_loop_out E Dxx pf guess nsteps tol atol).iters)

/-- The squared residuals measured by the run of
`metamatrix_conjugate_gradient`, in order (empty on early exit). -/
def metamatrix_cg_rdotr_trace {n : ℕ} {d : Fin n → ℕ} (E : DiffEngine n d)
    (Dxx : DxxFam d) (pf : Vecs d) (guess : Option (Vecs d)) (nsteps : ℕ)
    (tol atol : ℚ) : List ℚ :=
  let r := cg_init_r E Dxx pf guess
  let rdotr := dotSum r r
  if rdotr < cg_residual_tol E Dxx pf tol ∨ rdotr < atol then []
  else (cg_loop_out E Dxx pf guess nsteps tol atol).trace

/-! ### Concrete instances used by counterexamples and witnesses -/

/-- Two players, one parameter each. -/
abbrev dTwo : Fin 2 → ℕ := fun _ => 1

/-- One player, one parameter. -/
abbrev dOne : Fin 1 → ℕ := fun _ => 1

/-- All-zero flattened parameters, two players. -/
abbrev pfTwo : Vecs dTwo := fun _ _ => 0

/-- All-zero flattened parameters, one player. -/
abbrev pfOne : Vecs dOne := fun _ _ => 0

/-- 2-player engine for claim C1: the two Hessian objectives have different
cross second derivatives (1 for loss 0, 2 for loss 1; own blocks zero), so
which loss a block differentiates is observable.  Mixed partials of each
loss agree, as they do for any twice-differentiable objective. -/
abbrev engC1 : DiffEngine 2 dTwo :=
  ⟨fun _ _ => 0,
   fun l j i _ _ => if j = i then 0 else if l = 0 then 1 else 2⟩

/-- Seed vector: zero for player 0, one for player 1. -/
abbrev vC1 : Vecs dTwo := fun i _ => if i = 0 then 0 else 1

/-- 2-player engine for claim C4: cross second derivative 10 for loss 0 and
0 for loss 1, so the meta-matrix is `[[1, 10], [0, 1]]` under the
`squared_distance(1)` potential, and `gradLoss = (-10, 101)` making
`b = (10, -101)` and `A^t b = (10, -1)`.  The resulting normal-equations
system is ill-conditioned enough that the first CG step increases the joint
squared residual from 101 to 10100. -/
abbrev engC4 : DiffEngine 2 dTwo :=
  ⟨fun i _ => if i = 0 then -10 else 101,
   fun l j i _ _ => if j = i then 0 else if l = 0 then 10 else 0⟩

/-- 1-player engine for the solver witnesses: `grad_loss` gradient `-2`, so
`b = 2`; under `squared_distance(1)` the solver converges in one step. -/
abbrev engC3 : DiffEngine 1 dOne :=
  ⟨fun _ _ => -2, fun _ _ _ _ _ => 0⟩

/-- The one-step solution of the `engC3` game. -/
abbrev xC3 : Vecs dOne := fun _ _ => 2

/-- A concrete two-player vector pair, one scalar per player. -/
abbrev vecTwo (a b : ℚ) : Vecs dTwo := fun i _ => if i = 0 then a else b

/-! ### Tensor-layer lemmas and claims C7, C8, C9 -/

lemma ffn_parts_map_some (ts : List TensorQ) :
    ffn_parts (ts.map some) ts = ts.map Prod.snd := by
  induction ts with
  | nil => rfl
  | cons t rest ih =>
    simp only [ffn_parts, List.map_cons, List.zip_cons_cons] at ih ⊢
    exact congrArg _ ih

lemma cmd_write_back_self (ts : List TensorQ)
    (hwf : ∀ t ∈ ts, t.2.length = numel t) :
    cmd_write_back ts ((ts.map Prod.snd).flatten) = some ts := by
  induction ts with
  | nil => rfl
  | cons t rest ih =>
    have ht : t.2.length = numel t := hwf t (List.mem_cons_self t rest)
    have hrest : ∀ u ∈ rest, u.2.length = numel u :=
      fun u hu => hwf u (List.mem_cons_of_mem t hu)
    simp only [List.map_cons, List.flatten_cons, cmd_write_back,
      List.take_left' ht, List.drop_left' ht, ht, if_pos rfl, ih hrest,
      Option.map_some']
    simp

/-- Claim C7: flattening a player's tensors with `flatten_filter_none`
yields a vector whose length is the sum of the tensors' element counts, and
the write-back of `CMD.step` (slice by cumulative element counts, reshape)
reproduces the original tensors exactly. -/
theorem c7_flatten_unflatten_roundtrip (ts : List TensorQ)
    (hwf : ∀ t ∈ ts, t.2.length = numel t) :
    (flatten_filter_none (ts.map some) ts false false).length =
      (ts.map numel).sum ∧
    cmd_write_back ts (flatten_filter_none (ts.map some) ts false false) =
      some ts := by
  have hflat : flatten_filter_none (ts.map some) ts false false =
      (ts.map Prod.snd).flatten := by
    simp [flatten_filter_none, ffn_parts_map_some]
  constructor
  · rw [hflat, List.length_flatten, List.map_map]
    congr 1
    exact List.map_congr_left fun t ht => hwf t ht
  · rw [hflat]
    exact cmd_write_back_self ts hwf

/-- Witness for C7 at a concrete two-tensor player. -/
theorem c7_flatten_unflatten_roundtrip_witness :
    (flatten_filter_none
        ([(([2], [1, 2]) : TensorQ), ([1], [3])].map some)
        [(([2], [1, 2]) : TensorQ), ([1], [3])] false false).length =
      ([(([2], [1, 2]) : TensorQ), ([1], [3])].map numel).sum ∧
    cmd_write_back [(([2], [1, 2]) : TensorQ), ([1], [3])]
        (flatten_filter_none
          ([(([2], [1, 2]) : TensorQ), ([1], [3])].map some)
          [(([2], [1, 2]) : TensorQ), ([1], [3])] false false) =
      some [(([2], [1, 2]) : TensorQ), ([1], [3])] :=
  c7_flatten_unflatten_roundtrip [(([2], [1, 2]) : TensorQ), ([1], [3])]
    (by decide)

/-- Claim C8: a `None` gradient in position p flattens to a zero subvector
sized by the corresponding parameter's element count, and `neg=True`
negates every element of the concatenated result. -/
theorem c8_null_gradient (gl : List (Option TensorQ)) (pl : List TensorQ)
    (p : ℕ) (t : TensorQ) (hg : gl[p]? = some none) (hp : pl[p]? = some t) :
    (ffn_parts gl pl)[p]? = some (List.replicate (numel t) 0) ∧
    flatten_filter_none gl pl false false = (ffn_parts gl pl).flatten ∧
    flatten_filter_none gl pl false true =
      (flatten_filter_none gl pl false false).map (fun x => -x) := by
  refine ⟨?_, rfl, rfl⟩
  have hzip : (gl.zip pl)[p]? = some (none, t) :=
    (List.getElem?_zip_eq_some.mpr ⟨hg, hp⟩)
  simp only [ffn_parts, List.getElem?_map, hzip, Option.map_some']

/-- Witness for C8: `None` in position 0 against a 2-element parameter. -/
theorem c8_null_gradient_witness :
    (ffn_parts [none, some (([1], [5]) : TensorQ)]
        [(([2], [1, 2]) : TensorQ), ([1], [5])])[0]? =
      some (List.replicate (numel (([2], [1, 2]) : TensorQ)) 0) ∧
    flatten_filter_none [none, some (([1], [5]) : TensorQ)]
        [(([2], [1, 2]) : TensorQ), ([1], [5])] false false =
      (ffn_parts [none, some (([1], [5]) : TensorQ)]
        [(([2], [1, 2]) : TensorQ), ([1], [5])]).flatten ∧
    flatten_filter_none [none, some (([1], [5]) : TensorQ)]
        [(([2], [1, 2]) : TensorQ), ([1], [5])] false true =
      (flatten_filter_none [none, some (([1], [5]) : TensorQ)]
        [(([2], [1, 2]) : TensorQ), ([1], [5])] false false).map
        (fun x => -x) :=
  c8_null_gradient [none, some (([1], [5]) : TensorQ)]
    [(([2], [1, 2]) : TensorQ), ([1], [5])] 0 (([2], [1, 2]) : TensorQ)
    (by decide) (by decide)

/-- Counterexample to claim C9: a flattened vector strictly longer than the
player's total element count does not fail fast — the write-back succeeds,
consuming only the prefix and silently ignoring the trailing value. -/
theorem c9_counterexample :
    ([7, 8] : List ℚ).length ≠ ([(([1], [5]) : TensorQ)].map numel).sum ∧
    cmd_write_back [(([1], [5]) : TensorQ)] [7, 8] =
      some [([1], [7])] := by
  exact ⟨by decide, by decide⟩

/-- Claim C9 as amended: the write-back of `CMD.step` raises a
size-mismatch error exactly when the flattened vector is too short for the
player's tensors; an over-long vector is written without error, its tail
ignored. -/
theorem c9_amended_write_back_error (player : List TensorQ) (flat : List ℚ) :
    cmd_write_back player flat = none ↔
      flat.length < (player.map numel).sum := by
  induction player generalizing flat with
  | nil => simp [cmd_write_back]
  | cons p rest ih =>
    simp only [cmd_write_back, List.map_cons, List.sum_cons]
    by_cases h : numel p ≤ flat.length
    · rw [if_pos (by simp [List.length_take]; omega)]
      rw [Option.map_eq_none', ih]
      simp only [List.length_drop]
      omega
    · rw [if_neg (by simp [List.length_take]; omega)]
      constructor
      · intro _; omega
      · intro _; rfl

/-! ### Exponential map: claim C6 -/

lemma elementwise_squared_distance (alpha : ℚ) :
    ElementwiseBregman (squared_distance alpha) := by
  refine ⟨?_, ?_, ?_⟩
  · intro x; simp [squared_distance]
  · intro x; simp [squared_distance]
  · intro p v _; simp [squared_distance]

/-- Claim C6: for equally sized per-player lists of flattened parameters
and dual solutions, `exp_map` returns
`Dx(Dx_inv(param) + Dxx_vp(param, dual))` blockwise (under `torch.no_grad`,
a value-level no-op), and each returned vector keeps its parameter's
length, the potential being elementwise as the spec's Bregman contract
requires. -/
theorem c6_exp_map_formula (breg : BregmanPotential)
    (hbreg : ElementwiseBregman breg) (ps ds : List (List ℚ))
    (hlen : ps.length = ds.length)
    (hpair : ∀ (i : ℕ) (p q : List ℚ), ps[i]? = some p → ds[i]? = some q →
      p.length = q.length) :
    (exp_map breg ps ds).length = ps.length ∧
    ∀ (i : ℕ) (p q : List ℚ), ps[i]? = some p → ds[i]? = some q →
      (exp_map breg ps ds)[i]? =
        some (breg.Dx (addVec (breg.Dx_inv p) (breg.Dxx_vp p q))) ∧
      (breg.Dx (addVec (breg.Dx_inv p) (breg.Dxx_vp p q))).length =
        p.length := by
  constructor
  · simp [exp_map, hlen]
  · intro i p q hp hq
    constructor
    · exact List.getElem?_zipWith_eq_some.mpr ⟨p, q, hp, hq, rfl⟩
    · have hdxx : (breg.Dxx_vp p q).length = q.length :=
        hbreg.dxx_len p q (hpair i p q hp hq)
      have hadd : (addVec (breg.Dx_inv p) (breg.Dxx_vp p q)).length =
          p.length := by
        simp [addVec, hbreg.dx_inv_len, hdxx, hpair i p q hp hq]
      rw [hbreg.dx_len, hadd]

/-- Witness for C6 under `squared_distance(1)` at one player with
parameters `[1, 2]` and dual solution `[3, 4]`. -/
theorem c6_exp_map_formula_witness :
    (exp_map (squared_distance 1) [[1, 2]] [[3, 4]]).length = 1 ∧
    (exp_map (squared_distance 1) [[1, 2]] [[3, 4]])[0]? =
      some ((squared_distance 1).Dx
        (addVec ((squared_distance 1).Dx_inv [1, 2])
          ((squared_distance 1).Dxx_vp [1, 2] [3, 4]))) := by
  have hpair : ∀ (i : ℕ) (p q : List ℚ),
      ([[(1 : ℚ), 2]])[i]? = some p → ([[(3 : ℚ), 4]])[i]? = some q →
      p.length = q.length := by
    intro i p q hp hq
    match i with
    | 0 =>
      simp only [List.getElem?_cons_zero, Option.some.injEq] at hp hq
      subst hp; subst hq; rfl
    | Nat.succ m => simp at hp
  have h := c6_exp_map_formula (squared_distance 1)
    (elementwise_squared_distance 1) [[1, 2]] [[3, 4]] rfl hpair
  exact ⟨h.1, (h.2 0 [1, 2] [3, 4] rfl rfl).1⟩

/-! ### Meta-matrix operator: claims C1, C2, C5 -/

lemma avp_apply {n : ℕ} {d : Fin n → ℕ} (E : DiffEngine n d) (Dxx : DxxFam d)
    (pf v : Vecs d) (t : Bool) (i : Fin n) :
    avp E Dxx pf v t i = Dxx i (pf i) (v i) +
      ∑ j ∈ Finset.univ.erase i,
        Matrix.vecMul (v j) (E.hess (if t then j else i) j i) := by
  simp only [avp]
  rw [← Finset.add_sum_erase Finset.univ _ (Finset.mem_univ i)]
  congr 1
  · rw [avpEntry, dif_pos rfl]
  · exact Finset.sum_congr rfl fun j hj => by
      rw [avpEntry, dif_neg fun h => (Finset.mem_erase.mp hj).1 h.symm]

lemma atvp_apply {n : ℕ} {d : Fin n → ℕ} (E : DiffEngine n d) (Dxx : DxxFam d)
    (pf v : Vecs d) (i : Fin n) :
    atvp E Dxx pf v i = Dxx i (pf i) (v i) +
      ∑ j ∈ Finset.univ.erase i, Matrix.vecMul (v j) (E.hess j j i) := by
  simp only [atvp]
  rw [← Finset.add_sum_erase Finset.univ _ (Finset.mem_univ i)]
  congr 1
  · rw [atvpEntry, dif_pos rfl]
  · exact Finset.sum_congr rfl fun j hj => by
      rw [atvpEntry, dif_neg fun h => (Finset.mem_erase.mp hj).1 h.symm]

/-- Counterexample to claim C1: on a concrete two-player game the value
`avp` computes differs from the computation the claim describes (gradient of
player j's own Hessian objective, seed `v[j]`/`v[i]` by transpose flag) —
with `transpose=False` the code differentiates `hessian_loss_list[i]`, not
player j's objective. -/
theorem c1_counterexample :
    avp engC1 (squared_distance_Dxx_vp 1) pfTwo vC1 false ≠
      avp_as_claimed engC1 (squared_distance_Dxx_vp 1) pfTwo vC1 false := by
  intro h
  have h00 := congrFun (congrFun h 0) 0
  have h1 : avp engC1 (squared_distance_Dxx_vp 1) pfTwo vC1 false 0 0 = 1 := by
    simp [avp, avpEntry, Fin.sum_univ_two, squared_distance_Dxx_vp,
      Matrix.vecMul, Matrix.dotProduct, Fin.sum_univ_one]
  have h2 : avp_as_claimed engC1 (squared_distance_Dxx_vp 1) pfTwo vC1 false
      0 0 = 2 := by
    have he : (Finset.univ.erase (0 : Fin 2)) = {1} := by decide
    simp [avp_as_claimed, he, squared_distance_Dxx_vp,
      Matrix.vecMul, Matrix.dotProduct, Fin.sum_univ_one]
  rw [h1, h2] at h00
  norm_num at h00

/-- Claim C1 as amended: for each pair (i, j), i ≠ j, the first-order
gradient taken is that of the Hessian objective of player i when
`transpose` is unset (of player j when it is set), with respect to player
j's parameters, and its vector-Jacobian product against player i's
parameters is seeded by `v j` in both cases, accumulated into block i. -/
theorem c1_amended_avp_blocks {n : ℕ} {d : Fin n → ℕ} (E : DiffEngine n d)
    (Dxx : DxxFam d) (pf v : Vecs d) (t : Bool) (i : Fin n) :
    avp E Dxx pf v t i = Dxx i (pf i) (v i) +
      ∑ j ∈ Finset.univ.erase i,
        Matrix.vecMul (v j) (E.hess (if t then j else i) j i) :=
  avp_apply E Dxx pf v t i

/-- Claim C2: `atvp` (with its precomputed per-player first-order
gradients) returns exactly the same per-player vectors as
`avp` with `transpose=True`. -/
theorem c2_atvp_eq_avp_transpose {n : ℕ} {d : Fin n → ℕ}
    (E : DiffEngine n d) (Dxx : DxxFam d) (pf v : Vecs d) :
    atvp E Dxx pf v = avp E Dxx pf v true :=
  rfl

/-- Claim C5: on the diagonal both `avp` and `atvp` contribute exactly
`Dxx_vp(flattened_param[i], v[i])` to block i, and for a single-player game
under `squared_distance(1)` the meta-matrix product is the identity. -/
theorem c5_diagonal_bregman :
    (∀ (n : ℕ) (d : Fin n → ℕ) (E : DiffEngine n d) (Dxx : DxxFam d)
        (pf v : Vecs d) (t : Bool) (i : Fin n),
      avp E Dxx pf v t i = Dxx i (pf i) (v i) +
        ∑ j ∈ Finset.univ.erase i,
          Matrix.vecMul (v j) (E.hess (if t then j else i) j i) ∧
      atvp E Dxx pf v i = Dxx i (pf i) (v i) +
        ∑ j ∈ Finset.univ.erase i, Matrix.vecMul (v j) (E.hess j j i)) ∧
    (∀ (d1 : Fin 1 → ℕ) (E : DiffEngine 1 d1) (pf v : Vecs d1) (t : Bool),
      avp E (squared_distance_Dxx_vp 1) pf v t = v) := by
  constructor
  · exact fun n d E Dxx pf v t i =>
      ⟨avp_apply E Dxx pf v t i, atvp_apply E Dxx pf v i⟩
  · intro d1 E pf v t
    funext i k
    have hi : i = 0 := Subsingleton.elim i 0
    subst hi
    simp [avp, avpEntry, squared_distance_Dxx_vp, Fin.sum_univ_one]

/-! ### Linearity of the operator in the vector argument -/

lemma squared_distance_Dxx_linear {n : ℕ} {d : Fin n → ℕ} (alpha : ℚ) :
    DxxLinear (@squared_distance_Dxx_vp n d alpha) := by
  constructor
  · intro i p v w
    funext k
    simp [squared_distance_Dxx_vp, add_mul]
  · intro i p a v
    funext k
    simp [squared_distance_Dxx_vp]
    ring

lemma avp_v_add {n : ℕ} {d : Fin n → ℕ} (E : DiffEngine n d) (Dxx : DxxFam d)
    (hlin : DxxLinear Dxx) (pf v w : Vecs d) (t : Bool) :
    avp E Dxx pf (v + w) t = avp E Dxx pf v t + avp E Dxx pf w t := by
  funext i
  simp only [avp, Pi.add_apply, ← Finset.sum_add_distrib]
  refine Finset.sum_congr rfl fun j _ => ?_
  by_cases h : i = j
  · subst h
    simp [avpEntry, hlin.1]
  · simp [avpEntry, h, Matrix.add_vecMul]

lemma avp_v_smul {n : ℕ} {d : Fin n → ℕ} (E : DiffEngine n d) (Dxx : DxxFam d)
    (hlin : DxxLinear Dxx) (pf : Vecs d) (a : ℚ) (v : Vecs d) (t : Bool) :
    avp E Dxx pf (a • v) t = a • avp E Dxx pf v t := by
  funext i
  simp only [avp, Pi.smul_apply, Finset.smul_sum]
  refine Finset.sum_congr rfl fun j _ => ?_
  by_cases h : i = j
  · subst h
    simp [avpEntry, hlin.2]
  · simp [avpEntry, h, Matrix.vecMul_smul]

lemma AtA_vp_v_add {n : ℕ} {d : Fin n → ℕ} (E : DiffEngine n d)
    (Dxx : DxxFam d) (hlin : DxxLinear Dxx) (pf v w : Vecs d) :
    AtA_vp E Dxx pf (v + w) = AtA_vp E Dxx pf v + AtA_vp E Dxx pf w := by
  simp [AtA_vp, avp_v_add E Dxx hlin]

lemma AtA_vp_v_smul {n : ℕ} {d : Fin n → ℕ} (E : DiffEngine n d)
    (Dxx : DxxFam d) (hlin : DxxLinear Dxx) (pf : Vecs d) (a : ℚ)
    (v : Vecs d) :
    AtA_vp E Dxx pf (a • v) = a • AtA_vp E Dxx pf v := by
  simp [AtA_vp, avp_v_smul E Dxx hlin]

lemma AtA_vp_zero {n : ℕ} {d : Fin n → ℕ} (E : DiffEngine n d)
    (Dxx : DxxFam d) (hlin : DxxLinear Dxx) (pf : Vecs d) :
    AtA_vp E Dxx pf 0 = 0 := by
  have h := AtA_vp_v_smul E Dxx hlin pf 0 0
  rw [zero_smul, zero_smul] at h
  exact h

lemma cg_inv_step {n : ℕ} {d : Fin n → ℕ} (E : DiffEngine n d)
    (Dxx : DxxFam d) (hlin : DxxLinear Dxx) (pf x p : Vecs d) (a : ℚ) :
    cg_r0 E Dxx pf - AtA_vp E Dxx pf x - a • AtA_vp E Dxx pf p =
      cg_r0 E Dxx pf - AtA_vp E Dxx pf (x + a • p) := by
  rw [AtA_vp_v_add E Dxx hlin, AtA_vp_v_smul E Dxx hlin]
  abel

lemma cg_init_r_eq {n : ℕ} {d : Fin n → ℕ} (E : DiffEngine n d)
    (Dxx : DxxFam d) (hlin : DxxLinear Dxx) (pf : Vecs d)
    (guess : Option (Vecs d)) :
    cg_init_r E Dxx pf guess =
      cg_r0 E Dxx pf - AtA_vp E Dxx pf (cg_x0 guess) := by
  cases guess with
  | none => simp [cg_init_r, cg_x0, AtA_vp_zero E Dxx hlin pf]
  | some x => rfl

/-! ### Structural facts about the CG loop -/

lemma mem_dropLast_cons {α : Type} {q a : α} {l : List α}
    (h : q ∈ (a :: l).dropLast) : q = a ∨ q ∈ l.dropLast := by
  cases l with
  | nil => simp at h
  | cons b t =>
    rw [List.dropLast_cons₂] at h
    rcases List.mem_cons.mp h with h1 | h2
    · exact Or.inl h1
    · exact Or.inr h2

lemma cgLoop_props {n : ℕ} {d : Fin n → ℕ} (E : DiffEngine n d)
    (Dxx : DxxFam d) (pf : Vecs d) (atol rtol : ℚ) :
    ∀ (fuel : ℕ) (x r p : Vecs d) (rdotr : ℚ),
      (cgLoop E Dxx pf atol rtol fuel x r p rdotr).iters ≤ fuel ∧
      (cgLoop E Dxx pf atol rtol fuel x r p rdotr).trace.length =
        (cgLoop E Dxx pf atol rtol fuel x r p rdotr).iters ∧
      (1 ≤ fuel → 1 ≤ (cgLoop E Dxx pf atol rtol fuel x r p rdotr).iters) ∧
      (∀ q ∈ (cgLoop E Dxx pf atol rtol fuel x r p rdotr).trace.dropLast,
        ¬ (q < atol ∨ q < rtol)) ∧
      ((cgLoop E Dxx pf atol rtol fuel x r p rdotr).iters < fuel →
        ∀ q, (cgLoop E Dxx pf atol rtol fuel x r p rdotr).trace.getLast? =
            some q → (q < atol ∨ q < rtol)) := by
  intro fuel
  induction fuel with
  | zero =>
    intro x r p rdotr
    simp [cgLoop]
  | succ fuel ih =>
    intro x r p rdotr
    simp only [cgLoop]
    set x' := x + (rdotr / dotSum p (AtA_vp E Dxx pf p)) • p with hx'
    set r' := r - (rdotr / dotSum p (AtA_vp E Dxx pf p)) • AtA_vp E Dxx pf p
      with hr'
    set nr := dotSum r' r' with hnr
    set p' := r' + (nr / rdotr) • p with hp'
    split
    next hbr =>
      refine ⟨Nat.succ_le_succ (Nat.zero_le fuel), rfl, fun _ => le_refl 1,
        ?_, ?_⟩
      · intro q hq
        simp at hq
      · intro _ q hq
        rw [List.getLast?_singleton, Option.some.injEq] at hq
        rw [← hq]
        exact hbr
    next hbr =>
      refine ⟨Nat.succ_le_succ (ih x' r' p' nr).1, ?_,
        fun _ => Nat.le_add_left 1 _, ?_, ?_⟩
      · simp [(ih x' r' p' nr).2.1]
      · intro q hq
        rcases mem_dropLast_cons hq with h1 | h2
        · rw [h1]
          exact hbr
        · exact (ih x' r' p' nr).2.2.2.1 q h2
      · intro hlt q hq
        have hfuel : (cgLoop E Dxx pf atol rtol fuel x' r' p' nr).iters <
            fuel := Nat.lt_of_succ_lt_succ hlt
        cases hrt : (cgLoop E Dxx pf atol rtol fuel x' r' p' nr).trace with
        | nil =>
          have h0 : (cgLoop E Dxx pf atol rtol fuel x' r' p' nr).iters = 0 := by
            rw [← (ih x' r' p' nr).2.1, hrt]
            rfl
          have h1 : 1 ≤ fuel := Nat.lt_of_le_of_lt (Nat.zero_le _)
            (h0 ▸ hfuel)
          have := (ih x' r' p' nr).2.2.1 h1
          omega
        | cons b tl =>
          rw [hrt, List.getLast?_cons_cons] at hq
          exact (ih x' r' p' nr).2.2.2.2 hfuel q (by rw [hrt]; exact hq)

lemma cgLoop_converged {n : ℕ} {d : Fin n → ℕ} (E : DiffEngine n d)
    (Dxx : DxxFam d) (hlin : DxxLinear Dxx) (pf : Vecs d) (atol rtol : ℚ) :
    ∀ (fuel : ℕ) (x r p : Vecs d) (rdotr : ℚ),
      r = cg_r0 E Dxx pf - AtA_vp E Dxx pf x →
      (cgLoop E Dxx pf atol rtol fuel x r p rdotr).iters < fuel →
      (dotSum
          (cg_r0 E Dxx pf -
            AtA_vp E Dxx pf (cgLoop E Dxx pf atol rtol fuel x r p rdotr).x)
          (cg_r0 E Dxx pf -
            AtA_vp E Dxx pf (cgLoop E Dxx pf atol rtol fuel x r p rdotr).x) <
          atol ∨
        dotSum
          (cg_r0 E Dxx pf -
            AtA_vp E Dxx pf (cgLoop E Dxx pf atol rtol fuel x r p rdotr).x)
          (cg_r0 E Dxx pf -
            AtA_vp E Dxx pf (cgLoop E Dxx pf atol rtol fuel x r p rdotr).x) <
          rtol) := by
  intro fuel
  induction fuel with
  | zero =>
    intro x r p rdotr _ h
    exact absurd h (by simp [cgLoop])
  | succ fuel ih =>
    intro x r p rdotr hr hlt
    simp only [cgLoop] at hlt ⊢
    split at hlt
    next hbr =>
      rw [if_pos hbr]
      have hx : cg_r0 E Dxx pf - AtA_vp E Dxx pf
            (x + (rdotr / dotSum p (AtA_vp E Dxx pf p)) • p) =
          r - (rdotr / dotSum p (AtA_vp E Dxx pf p)) • AtA_vp E Dxx pf p := by
        rw [hr, cg_inv_step E Dxx hlin]
      rw [hx]
      exact hbr
    next hbr =>
      rw [if_neg hbr]
      have hx : r - (rdotr / dotSum p (AtA_vp E Dxx pf p)) •
            AtA_vp E Dxx pf p =
          cg_r0 E Dxx pf - AtA_vp E Dxx pf
            (x + (rdotr / dotSum p (AtA_vp E Dxx pf p)) • p) := by
        rw [hr, cg_inv_step E Dxx hlin]
      exact ih _ _ _ _ hx (Nat.lt_of_succ_lt_succ hlt)

/-! ### Evaluation of the concrete games -/

lemma cgLoop_succ_break {n : ℕ} {d : Fin n → ℕ} (E : DiffEngine n d)
    (Dxx : DxxFam d) (pf : Vecs d) (atol rtol : ℚ) (fuel : ℕ)
    (x r p x' r' : Vecs d) (rdotr nr : ℚ)
    (hr : r - (rdotr / dotSum p (AtA_vp E Dxx pf p)) • AtA_vp E Dxx pf p =
      r')
    (hx : x + (rdotr / dotSum p (AtA_vp E Dxx pf p)) • p = x')
    (hnr : dotSum r' r' = nr)
    (hcond : nr < atol ∨ nr < rtol) :
    cgLoop E Dxx pf atol rtol (fuel + 1) x r p rdotr = ⟨x', 1, [nr]⟩ := by
  simp only [cgLoop]
  rw [hr, hnr, hx, if_pos hcond]

lemma cgLoop_succ_continue {n : ℕ} {d : Fin n → ℕ} (E : DiffEngine n d)
    (Dxx : DxxFam d) (pf : Vecs d) (atol rtol : ℚ) (fuel : ℕ)
    (x r p x' r' p' : Vecs d) (rdotr nr : ℚ)
    (hr : r - (rdotr / dotSum p (AtA_vp E Dxx pf p)) • AtA_vp E Dxx pf p =
      r')
    (hx : x + (rdotr / dotSum p (AtA_vp E Dxx pf p)) • p = x')
    (hnr : dotSum r' r' = nr)
    (hcond : ¬ (nr < atol ∨ nr < rtol))
    (hp2 : r' + (nr / rdotr) • p = p') :
    cgLoop E Dxx pf atol rtol (fuel + 1) x r p rdotr =
      ⟨(cgLoop E Dxx pf atol rtol fuel x' r' p' nr).x,
       (cgLoop E Dxx pf atol rtol fuel x' r' p' nr).iters + 1,
       nr :: (cgLoop E Dxx pf atol rtol fuel x' r' p' nr).trace⟩ := by
  simp only [cgLoop]
  rw [hr, hnr, hx, hp2, if_neg hcond]

lemma avp_single {d1 : Fin 1 → ℕ} (E : DiffEngine 1 d1) (pf v : Vecs d1)
    (t : Bool) : avp E (squared_distance_Dxx_vp 1) pf v t = v := by
  funext i k
  have hi : i = 0 := Subsingleton.elim i 0
  subst hi
  simp [avp, avpEntry, squared_distance_Dxx_vp, Fin.sum_univ_one]

lemma AtA_single {d1 : Fin 1 → ℕ} (E : DiffEngine 1 d1) (pf v : Vecs d1) :
    AtA_vp E (squared_distance_Dxx_vp 1) pf v = v := by
  simp [AtA_vp, avp_single]

lemma cg_b_engC3 : cg_b engC3 = xC3 := by
  funext i k
  simp [cg_b]

lemma cg_r0_engC3 : cg_r0 engC3 (squared_distance_Dxx_vp 1) pfOne = xC3 := by
  rw [cg_r0, cg_b_engC3, avp_single]

lemma cg_init_r_engC3 :
    cg_init_r engC3 (squared_distance_Dxx_vp 1) pfOne none = xC3 := by
  simp only [cg_init_r]
  exact cg_r0_engC3

lemma dotSum_xC3 : dotSum xC3 xC3 = 4 := by
  simp [dotSum, Matrix.dotProduct, Fin.sum_univ_one]
  norm_num

lemma dotSum_zero_one : dotSum (0 : Vecs dOne) 0 = 0 := by
  simp [dotSum]

lemma cg_rtol_engC3 :
    cg_residual_tol engC3 (squared_distance_Dxx_vp 1) pfOne 0 = 0 := by
  rw [cg_residual_tol, cg_r0_engC3, dotSum_xC3]
  norm_num

lemma mcg_engC3_first :
    metamatrix_conjugate_gradient engC3 (squared_distance_Dxx_vp 1) pfOne
      none 5 0 1 = some (xC3, 1) := by
  have hloop : cg_loop_out engC3 (squared_distance_Dxx_vp 1) pfOne none 5
      0 1 = ⟨xC3, 1, [0]⟩ := by
    rw [cg_loop_out, cg_init_r_engC3, cg_rtol_engC3, dotSum_xC3]
    have hx0 : cg_x0 (none : Option (Vecs dOne)) = 0 := rfl
    rw [hx0, show (5 : ℕ) = 4 + 1 from rfl]
    refine cgLoop_succ_break engC3 (squared_distance_Dxx_vp 1) pfOne 1 0 4
      0 xC3 xC3 xC3 0 4 0 ?_ ?_ dotSum_zero_one (Or.inl (by norm_num))
    · rw [AtA_single, dotSum_xC3]
      norm_num
    · rw [AtA_single, dotSum_xC3]
      norm_num
  simp only [metamatrix_conjugate_gradient, cg_init_r_engC3, dotSum_xC3,
    cg_rtol_engC3]
  rw [if_neg (by norm_num), hloop]
  norm_num

lemma not_early_exit_engC3 :
    ¬ cg_early_exit engC3 (squared_distance_Dxx_vp 1) pfOne none 0 1 := by
  intro h
  rw [cg_early_exit, cg_init_r_engC3, dotSum_xC3, cg_rtol_engC3] at h
  norm_num at h

lemma vecTwo_app0 (a b : ℚ) (k : Fin 1) : vecTwo a b 0 k = a := rfl

lemma vecTwo_app1 (a b : ℚ) (k : Fin 1) : vecTwo a b 1 k = b := rfl

lemma vecTwo_add (a b c e : ℚ) :
    vecTwo a b + vecTwo c e = vecTwo (a + c) (b + e) := by
  funext i k
  by_cases h : i = 0 <;> simp [vecTwo, h]

lemma vecTwo_sub (a b c e : ℚ) :
    vecTwo a b - vecTwo c e = vecTwo (a - c) (b - e) := by
  funext i k
  by_cases h : i = 0 <;> simp [vecTwo, h]

lemma vecTwo_smul (c a b : ℚ) :
    c • vecTwo a b = vecTwo (c * a) (c * b) := by
  funext i k
  by_cases h : i = 0 <;> simp [vecTwo, h]

lemma vecTwo_zero : (0 : Vecs dTwo) = vecTwo 0 0 := by
  funext i k
  by_cases h : i = 0 <;> simp [vecTwo, h]

lemma dotSum_vecTwo (a b c e : ℚ) :
    dotSum (vecTwo a b) (vecTwo c e) = a * c + b * e := by
  simp only [dotSum, Matrix.dotProduct, Fin.sum_univ_two, Fin.sum_univ_one,
    vecTwo_app0, vecTwo_app1]

lemma avp_engC4_false (v : Vecs dTwo) :
    avp engC4 (squared_distance_Dxx_vp 1) pfTwo v false =
      vecTwo (v 0 0 + 10 * v 1 0) (v 1 0) := by
  funext i k
  have hk : k = 0 := Subsingleton.elim k 0
  subst hk
  fin_cases i <;>
    simp +decide [avp, avpEntry, Fin.sum_univ_two, squared_distance_Dxx_vp,
      Matrix.vecMul, Matrix.dotProduct, Fin.sum_univ_one, vecTwo] <;>
    ring

lemma avp_engC4_true (v : Vecs dTwo) :
    avp engC4 (squared_distance_Dxx_vp 1) pfTwo v true =
      vecTwo (v 0 0) (10 * v 0 0 + v 1 0) := by
  funext i k
  have hk : k = 0 := Subsingleton.elim k 0
  subst hk
  fin_cases i <;>
    simp +decide [avp, avpEntry, Fin.sum_univ_two, squared_distance_Dxx_vp,
      Matrix.vecMul, Matrix.dotProduct, Fin.sum_univ_one, vecTwo] <;>
    ring

lemma AtA_engC4 (v : Vecs dTwo) :
    AtA_vp engC4 (squared_distance_Dxx_vp 1) pfTwo v =
      vecTwo (v 0 0 + 10 * v 1 0)
        (10 * (v 0 0 + 10 * v 1 0) + v 1 0) := by
  rw [AtA_vp, avp_engC4_false, avp_engC4_true, vecTwo_app0, vecTwo_app1]

lemma cg_b_engC4 : cg_b engC4 = vecTwo 10 (-101) := by
  funext i k
  fin_cases i <;> simp +decide [cg_b, vecTwo]

lemma cg_r0_engC4 :
    cg_r0 engC4 (squared_distance_Dxx_vp 1) pfTwo = vecTwo 10 (-1) := by
  rw [cg_r0, cg_b_engC4, avp_engC4_true, vecTwo_app0, vecTwo_app1]
  norm_num

lemma cg_init_r_engC4 :
    cg_init_r engC4 (squared_distance_Dxx_vp 1) pfTwo none =
      vecTwo 10 (-1) := by
  simp only [cg_init_r]
  exact cg_r0_engC4

lemma rdotr0_engC4 :
    dotSum (cg_init_r engC4 (squared_distance_Dxx_vp 1) pfTwo none)
      (cg_init_r engC4 (squared_distance_Dxx_vp 1) pfTwo none) = 101 := by
  rw [cg_init_r_engC4, dotSum_vecTwo]
  norm_num

lemma cg_rtol_engC4 :
    cg_residual_tol engC4 (squared_distance_Dxx_vp 1) pfTwo
      (1 / 1000000) = 101 / 1000000 := by
  rw [cg_residual_tol, cg_r0_engC4, dotSum_vecTwo]
  norm_num

lemma not_early_exit_engC4 :
    ¬ cg_early_exit engC4 (squared_distance_Dxx_vp 1) pfTwo none
      (1 / 1000000) (1 / 1000000) := by
  intro h
  rw [cg_early_exit, rdotr0_engC4, cg_rtol_engC4] at h
  norm_num at h

lemma AtA_engC4_step1 :
    AtA_vp engC4 (squared_distance_Dxx_vp 1) pfTwo (vecTwo 10 (-1)) =
      vecTwo 0 (-1) := by
  rw [AtA_engC4, vecTwo_app0, vecTwo_app1]
  norm_num

lemma AtA_engC4_step2 :
    AtA_vp engC4 (squared_distance_Dxx_vp 1) pfTwo (vecTwo 1010 0) =
      vecTwo 1010 10100 := by
  rw [AtA_engC4, vecTwo_app0, vecTwo_app1]
  norm_num

lemma trace_engC4 :
    metamatrix_cg_rdotr_trace engC4 (squared_distance_Dxx_vp 1) pfTwo none
      2 (1 / 1000000) (1 / 1000000) = [10100, 0] := by
  have hds : dotSum (vecTwo 10 (-1)) (vecTwo 10 (-1)) = 101 := by
    rw [dotSum_vecTwo]
    norm_num
  have hpAp1 : dotSum (vecTwo 10 (-1)) (vecTwo 0 (-1)) = 1 := by
    rw [dotSum_vecTwo]
    norm_num
  have hstep1r : vecTwo 10 (-1) -
      (101 / dotSum (vecTwo 10 (-1))
          (AtA_vp engC4 (squared_distance_Dxx_vp 1) pfTwo
            (vecTwo 10 (-1)))) •
        AtA_vp engC4 (squared_distance_Dxx_vp 1) pfTwo (vecTwo 10 (-1)) =
      vecTwo 10 100 := by
    rw [AtA_engC4_step1, hpAp1, vecTwo_smul, vecTwo_sub]
    norm_num
  have hstep1x : vecTwo 0 0 +
      (101 / dotSum (vecTwo 10 (-1))
          (AtA_vp engC4 (squared_distance_Dxx_vp 1) pfTwo
            (vecTwo 10 (-1)))) • vecTwo 10 (-1) =
      vecTwo 1010 (-101) := by
    rw [AtA_engC4_step1, hpAp1, vecTwo_smul, vecTwo_add]
    norm_num
  have hstep1nr : dotSum (vecTwo 10 100) (vecTwo 10 100) = 10100 := by
    rw [dotSum_vecTwo]
    norm_num
  have hstep1p : vecTwo 10 100 + ((10100 : ℚ) / 101) • vecTwo 10 (-1) =
      vecTwo 1010 0 := by
    rw [vecTwo_smul, vecTwo_add]
    norm_num
  have hpAp2 : dotSum (vecTwo 1010 0) (vecTwo 1010 10100) = 1020100 := by
    rw [dotSum_vecTwo]
    norm_num
  have hstep2r : vecTwo 10 100 -
      (10100 / dotSum (vecTwo 1010 0)
          (AtA_vp engC4 (squared_distance_Dxx_vp 1) pfTwo
            (vecTwo 1010 0))) •
        AtA_vp engC4 (squared_distance_Dxx_vp 1) pfTwo (vecTwo 1010 0) =
      vecTwo 0 0 := by
    rw [AtA_engC4_step2, hpAp2, vecTwo_smul, vecTwo_sub]
    norm_num
  have hstep2x : vecTwo 1010 (-101) +
      (10100 / dotSum (vecTwo 1010 0)
          (AtA_vp engC4 (squared_distance_Dxx_vp 1) pfTwo
            (vecTwo 1010 0))) • vecTwo 1010 0 =
      vecTwo 1020 (-101) := by
    rw [AtA_engC4_step2, hpAp2, vecTwo_smul, vecTwo_add]
    norm_num
  have hstep2nr : dotSum (vecTwo 0 0) (vecTwo 0 0) = 0 := by
    rw [dotSum_vecTwo]
    norm_num
  simp only [metamatrix_cg_rdotr_trace]
  rw [rdotr0_engC4, cg_rtol_engC4, if_neg (by norm_num)]
  rw [cg_loop_out, cg_init_r_engC4, cg_rtol_engC4]
  have hx0 : cg_x0 (none : Option (Vecs dTwo)) = vecTwo 0 0 := vecTwo_zero
  rw [hds, hx0]
  rw [cgLoop_succ_continue engC4 (squared_distance_Dxx_vp 1) pfTwo
    (1 / 1000000) (101 / 1000000) 1 (vecTwo 0 0) (vecTwo 10 (-1))
    (vecTwo 10 (-1)) (vecTwo 1010 (-101)) (vecTwo 10 100) (vecTwo 1010 0)
    101 10100 hstep1r hstep1x hstep1nr (by norm_num) hstep1p]
  rw [cgLoop_succ_break engC4 (squared_distance_Dxx_vp 1) pfTwo
    (1 / 1000000) (101 / 1000000) 0 (vecTwo 1010 (-101)) (vecTwo 10 100)
    (vecTwo 1010 0) (vecTwo 1020 (-101)) (vecTwo 0 0) 10100 0
    hstep2r hstep2x hstep2nr (Or.inl (by norm_num))]

/-! ### Conjugate-gradient solver: claims C3, C4, C10 -/

/-- Claim C3: when the initial squared residual (after the warm-start
subtraction, if any) is below `residual_tol = tol * norm(At b)^2` or below
`atol`, the solver returns the supplied guess (zero vectors when none)
unchanged with iteration count 0; and (for a linear Bregman `Dxx_vp`, per
the spec's elementwise contract) feeding a solution on which a run of the
same game converged before exhausting `n_steps` back in as the warm start
makes the next run exit immediately with 0 iterations. -/
theorem c3_early_exit_and_warm_start {n : ℕ} {d : Fin n → ℕ}
    (E : DiffEngine n d) (Dxx : DxxFam d) (pf : Vecs d)
    (guess : Option (Vecs d)) (nsteps : ℕ) (tol atol : ℚ) :
    (cg_early_exit E Dxx pf guess tol atol →
      metamatrix_conjugate_gradient E Dxx pf guess nsteps tol atol =
        some (cg_x0 guess, 0)) ∧
    (DxxLinear Dxx →
      ∀ (x : Vecs d) (k : ℕ),
        metamatrix_conjugate_gradient E Dxx pf guess nsteps tol atol =
          some (x, k) → k < nsteps →
        metamatrix_conjugate_gradient E Dxx pf (some x) nsteps tol atol =
          some (x, 0)) := by
  constructor
  · intro h
    simp only [metamatrix_conjugate_gradient]
    rw [if_pos h]
  · intro hlin x k hrun hk
    by_cases hexit : cg_early_exit E Dxx pf guess tol atol
    · have heq : metamatrix_conjugate_gradient E Dxx pf guess nsteps tol
          atol = some (cg_x0 guess, 0) := by
        simp only [metamatrix_conjugate_gradient]
        rw [if_pos hexit]
      rw [heq, Option.some.injEq, Prod.mk.injEq] at hrun
      obtain ⟨hx, _⟩ := hrun
      have hinit : cg_init_r E Dxx pf (some x) =
          cg_init_r E Dxx pf guess := by
        have h1 : cg_init_r E Dxx pf (some x) =
            cg_r0 E Dxx pf - AtA_vp E Dxx pf x := rfl
        rw [h1, ← hx, ← cg_init_r_eq E Dxx hlin pf guess]
      simp only [metamatrix_conjugate_gradient]
      rw [hinit, if_pos hexit]
      rfl
    · have heq : metamatrix_conjugate_gradient E Dxx pf guess nsteps tol
          atol =
          if (cg_loop_out E Dxx pf guess nsteps tol atol).iters = 0 then
            none
          else some ((cg_loop_out E Dxx pf guess nsteps tol atol).x,
            (cg_loop_out E Dxx pf guess nsteps tol atol).iters) := by
        simp only [metamatrix_conjugate_gradient]
        rw [if_neg hexit]
      rw [heq] at hrun
      by_cases hz : (cg_loop_out E Dxx pf guess nsteps tol atol).iters = 0
      · rw [if_pos hz] at hrun
        exact absurd hrun (by simp)
      · rw [if_neg hz, Option.some.injEq, Prod.mk.injEq] at hrun
        obtain ⟨hx, hkk⟩ := hrun
        have hlt : (cgLoop E Dxx pf atol (cg_residual_tol E Dxx pf tol)
            nsteps (cg_x0 guess) (cg_init_r E Dxx pf guess)
            (cg_init_r E Dxx pf guess)
            (dotSum (cg_init_r E Dxx pf guess)
              (cg_init_r E Dxx pf guess))).iters < nsteps := by
          show (cg_loop_out E Dxx pf guess nsteps tol atol).iters < nsteps
          rw [hkk]
          exact hk
        have hconv := cgLoop_converged E Dxx hlin pf atol
          (cg_residual_tol E Dxx pf tol) nsteps (cg_x0 guess)
          (cg_init_r E Dxx pf guess) (cg_init_r E Dxx pf guess)
          (dotSum (cg_init_r E Dxx pf guess) (cg_init_r E Dxx pf guess))
          (cg_init_r_eq E Dxx hlin pf guess) hlt
        have hcond : dotSum (cg_init_r E Dxx pf (some x))
              (cg_init_r E Dxx pf (some x)) <
              cg_residual_tol E Dxx pf tol ∨
            dotSum (cg_init_r E Dxx pf (some x))
              (cg_init_r E Dxx pf (some x)) < atol := by
          have h1 : cg_init_r E Dxx pf (some x) =
              cg_r0 E Dxx pf - AtA_vp E Dxx pf x := rfl
          rw [h1, ← hx]
          exact Or.symm hconv
        simp only [metamatrix_conjugate_gradient]
        rw [if_pos hcond]
        rfl

/-- Counterexample to claim C4: on a concrete (well-conditioned enough to
enter the loop) game, the sequence of joint squared residuals measured by
the solver is 101, 10100, 0 — it increases from the initial residual to the
first iteration, so it is not non-increasing across iterations. -/
theorem c4_counterexample :
    ¬ cg_early_exit engC4 (squared_distance_Dxx_vp 1) pfTwo none
        (1 / 1000000) (1 / 1000000) ∧
    ¬ List.Chain' (fun a b => b ≤ a)
        (dotSum (cg_init_r engC4 (squared_distance_Dxx_vp 1) pfTwo none)
            (cg_init_r engC4 (squared_distance_Dxx_vp 1) pfTwo none) ::
          metamatrix_cg_rdotr_trace engC4 (squared_distance_Dxx_vp 1) pfTwo
            none 2 (1 / 1000000) (1 / 1000000)) := by
  refine ⟨not_early_exit_engC4, ?_⟩
  rw [rdotr0_engC4, trace_engC4]
  intro h
  have h1 := (List.chain'_cons.mp h).1
  norm_num at h1

/-- Claim C4 as amended: when the solver does not early-exit, it runs at
most `n_steps` iterations; every measured joint squared residual before the
last is still at or above both thresholds (the loop continues only while
unconverged), and if it stops before `n_steps` iterations the final
squared residual is below `atol` or `residual_tol`.  The squared residual
itself need not be non-increasing. -/
theorem c4_amended_residual_stopping {n : ℕ} {d : Fin n → ℕ}
    (E : DiffEngine n d) (Dxx : DxxFam d) (pf : Vecs d)
    (guess : Option (Vecs d)) (nsteps : ℕ) (tol atol : ℚ)
    (h : ¬ cg_early_exit E Dxx pf guess tol atol) :
    (metamatrix_cg_rdotr_trace E Dxx pf guess nsteps tol atol).length ≤
      nsteps ∧
    (∀ q ∈ (metamatrix_cg_rdotr_trace E Dxx pf guess nsteps tol
        atol).dropLast, ¬ (q < atol ∨ q < cg_residual_tol E Dxx pf tol)) ∧
    ((metamatrix_cg_rdotr_trace E Dxx pf guess nsteps tol atol).length <
        nsteps →
      ∀ q, (metamatrix_cg_rdotr_trace E Dxx pf guess nsteps tol
          atol).getLast? = some q →
        (q < atol ∨ q < cg_residual_tol E Dxx pf tol)) := by
  have htr : metamatrix_cg_rdotr_trace E Dxx pf guess nsteps tol atol =
      (cg_loop_out E Dxx pf guess nsteps tol atol).trace := by
    simp only [metamatrix_cg_rdotr_trace]
    rw [if_neg h]
  have hp := cgLoop_props E Dxx pf atol (cg_residual_tol E Dxx pf tol)
    nsteps (cg_x0 guess) (cg_init_r E Dxx pf guess)
    (cg_init_r E Dxx pf guess)
    (dotSum (cg_init_r E Dxx pf guess) (cg_init_r E Dxx pf guess))
  rw [htr]
  simp only [cg_loop_out]
  refine ⟨?_, hp.2.2.2.1, ?_⟩
  · rw [hp.2.1]
    exact hp.1
  · intro hl q hq
    rw [hp.2.1] at hl
    exact hp.2.2.2.2 hl q hq

/-- Claim C10: with `n_steps >= 1` the solver returns normally, the
returned iteration count never exceeds `n_steps` and is at least 1 when no
early exit happened; with `n_steps = 0` and no early exit, the final
`return ..., i+1` reads the never-bound loop variable and the call fails
(an unbound-variable error, modelled as `none`). -/
theorem c10_nsteps_behavior {n : ℕ} {d : Fin n → ℕ} (E : DiffEngine n d)
    (Dxx : DxxFam d) (pf : Vecs d) (guess : Option (Vecs d))
    (tol atol : ℚ) :
    (∀ nsteps : ℕ, 1 ≤ nsteps →
      (metamatrix_conjugate_gradient E Dxx pf guess nsteps tol
        atol).isSome = true) ∧
    (∀ (nsteps : ℕ) (x : Vecs d) (k : ℕ),
      metamatrix_conjugate_gradient E Dxx pf guess nsteps tol atol =
        some (x, k) → k ≤ nsteps) ∧
    (∀ (nsteps : ℕ) (x : Vecs d) (k : ℕ),
      ¬ cg_early_exit E Dxx pf guess tol atol →
      metamatrix_conjugate_gradient E Dxx pf guess nsteps tol atol =
        some (x, k) → 1 ≤ k) ∧
    (¬ cg_early_exit E Dxx pf guess tol atol →
      metamatrix_conjugate_gradient E Dxx pf guess 0 tol atol = none) := by
  refine ⟨?_, ?_, ?_, ?_⟩
  · intro nsteps h1
    by_cases hexit : cg_early_exit E Dxx pf guess tol atol
    · simp only [metamatrix_conjugate_gradient]
      rw [if_pos hexit]
      rfl
    · simp only [metamatrix_conjugate_gradient]
      rw [if_neg hexit]
      have hpos := (cgLoop_props E Dxx pf atol
        (cg_residual_tol E Dxx pf tol) nsteps (cg_x0 guess)
        (cg_init_r E Dxx pf guess) (cg_init_r E Dxx pf guess)
        (dotSum (cg_init_r E Dxx pf guess)
          (cg_init_r E Dxx pf guess))).2.2.1 h1
      rw [if_neg (by simp only [cg_loop_out]; omega)]
      rfl
  · intro nsteps x k hrun
    by_cases hexit : cg_early_exit E Dxx pf guess tol atol
    · simp only [metamatrix_conjugate_gradient] at hrun
      rw [if_pos hexit, Option.some.injEq, Prod.mk.injEq] at hrun
      omega
    · simp only [metamatrix_conjugate_gradient] at hrun
      rw [if_neg hexit] at hrun
      by_cases hz : (cg_loop_out E Dxx pf guess nsteps tol atol).iters = 0
      · rw [if_pos hz] at hrun
        exact absurd hrun (by simp)
      · rw [if_neg hz, Option.some.injEq, Prod.mk.injEq] at hrun
        have hle := (cgLoop_props E Dxx pf atol
          (cg_residual_tol E Dxx pf tol) nsteps (cg_x0 guess)
          (cg_init_r E Dxx pf guess) (cg_init_r E Dxx pf guess)
          (dotSum (cg_init_r E Dxx pf guess)
            (cg_init_r E Dxx pf guess))).1
        have hki : (cg_loop_out E Dxx pf guess nsteps tol atol).iters =
            k := hrun.2
        simp only [cg_loop_out] at hki
        omega
  · intro nsteps x k hexit hrun
    simp only [metamatrix_conjugate_gradient] at hrun
    rw [if_neg hexit] at hrun
    by_cases hz : (cg_loop_out E Dxx pf guess nsteps tol atol).iters = 0
    · rw [if_pos hz] at hrun
      exact absurd hrun (by simp)
    · rw [if_neg hz, Option.some.injEq, Prod.mk.injEq] at hrun
      have hki := hrun.2
      omega
  · intro hexit
    simp only [metamatrix_conjugate_gradient]
    rw [if_neg hexit]
    have hle := (cgLoop_props E Dxx pf atol
      (cg_residual_tol E Dxx pf tol) 0 (cg_x0 guess)
      (cg_init_r E Dxx pf guess) (cg_init_r E Dxx pf guess)
      (dotSum (cg_init_r E Dxx pf guess)
        (cg_init_r E Dxx pf guess))).1
    rw [if_pos (by simp only [cg_loop_out]; omega)]

/-- Witness for C3: the single-player `engC3` game early-exits under a
loose `atol`, and warm-starting with the solution of a converged run
(1 < 5 iterations) exits with 0 iterations. -/
theorem c3_early_exit_and_warm_start_witness :
    metamatrix_conjugate_gradient engC3 (squared_distance_Dxx_vp 1) pfOne
      none 5 0 100 = some (cg_x0 (none : Option (Vecs dOne)), 0) ∧
    metamatrix_conjugate_gradient engC3 (squared_distance_Dxx_vp 1) pfOne
      (some xC3) 5 0 1 = some (xC3, 0) := by
  constructor
  · refine (c3_early_exit_and_warm_start engC3 (squared_distance_Dxx_vp 1)
      pfOne none 5 0 100).1 (Or.inr ?_)
    rw [cg_init_r_engC3, dotSum_xC3]
    norm_num
  · exact (c3_early_exit_and_warm_start engC3 (squared_distance_Dxx_vp 1)
      pfOne none 5 0 1).2 (squared_distance_Dxx_linear 1) xC3 1
      mcg_engC3_first (by norm_num)

/-- Witness for the amended C4 at the concrete `engC4` game. -/
theorem c4_amended_residual_stopping_witness :
    (metamatrix_cg_rdotr_trace engC4 (squared_distance_Dxx_vp 1) pfTwo
      none 2 (1 / 1000000) (1 / 1000000)).length ≤ 2 :=
  (c4_amended_residual_stopping engC4 (squared_distance_Dxx_vp 1) pfTwo
    none 2 (1 / 1000000) (1 / 1000000) not_early_exit_engC4).1

/-- Witness for C10: the `engC3` game returns normally with `n_steps = 5`
and fails (unbound loop variable, `none`) with `n_steps = 0`. -/
theorem c10_nsteps_behavior_witness :
    (metamatrix_conjugate_gradient engC3 (squared_distance_Dxx_vp 1) pfOne
      none 5 0 1).isSome = true ∧
    metamatrix_conjugate_gradient engC3 (squared_distance_Dxx_vp 1) pfOne
      none 0 0 1 = none :=
  ⟨(c10_nsteps_behavior engC3 (squared_distance_Dxx_vp 1) pfOne none 0
      1).1 5 (by norm_num),
   (c10_nsteps_behavior engC3 (squared_distance_Dxx_vp 1) pfOne none 0
      1).2.2.2 not_early_exit_engC3⟩

end MultiCMD
